import Mathlib

set_option maxHeartbeats 1600000

/-!
Verification of the file configuration provider
(`src/provider/file/file.go` of the repository).

The Go code is shallowly embedded as executable Lean definitions:

* `Configuration` mirrors `types.Configuration`: the two name-indexed maps
  (`Backends`, `Frontends`) are association lists wrapped in `Option`, where
  `none` models a nil Go map and `some l` a non-nil map with entries `l`;
  the `TLS` slice is `Option (List Nat)` where `none` models a nil slice.
  Backend/frontend values and TLS configuration pointers are surrogate
  natural numbers (TLS objects are deduplicated by pointer identity in the
  Go code, so the surrogate token stands for the pointer).
* Filesystem trees are inductive values (`FsEntry` for the merge walk,
  `FsObj` for directory enumeration); the external decoder invoked by
  `loadFileConfig` is modelled by storing, in each file node, the
  `Except`-result the decoder produces for that file (read errors are folded
  into the same `Except`).
* Log warnings (`log.Warnf`) are modelled as an explicit output list.
-/

namespace TraefikFileProvider

/-- Mirror of Go `types.Configuration` (the fragment/aggregate record):
`Backends`/`Frontends` are nilable maps, `TLS` a nilable slice of
pointer-identity tokens. -/
structure Configuration where
  Backends : Option (List (String × Nat))
  Frontends : Option (List (String × Nat))
  TLS : Option (List Nat)
deriving DecidableEq, Repr

/-- Go map lookup on an association list (keys are unique in every list the
code builds, mirroring Go map semantics). -/
def lookupKey {β : Type} (k : String) : List (String × β) → Option β
  | [] => none
  | (k', v) :: rest => if k' = k then some v else lookupKey k rest

/-- Go map assignment `m[k] = v`: replace the entry if the key is present,
otherwise append it. -/
def updateKey {β : Type} (k : String) (v : β) : List (String × β) → List (String × β)
  | [] => [(k, v)]
  | (k', v') :: rest => if k' = k then (k, v) :: rest else (k', v') :: updateKey k v rest

/-- Go `delete(m, k)`. -/
def eraseKey {β : Type} (k : String) : List (String × β) → List (String × β)
  | [] => []
  | (k', v) :: rest => if k' = k then eraseKey k rest else (k', v) :: eraseKey k rest

/-- One `log.Warnf` emission of the merge loop in `loadFileConfigFromDirectory`
(lines 291-313): a backend / frontend / TLS entry was already configured and
the new one is skipped. -/
inductive Warning where
  | backendConflict (name : String)
  | frontendConflict (name : String)
  | tlsConflict (token : Nat)
deriving DecidableEq, Repr

/-- Go `strings.HasSuffix s suffix` (used by the walk to recognize `.toml` and
`.tmpl` fragment files): true iff `suffix` is a suffix of `s`, computed on the
character sequences. -/
def hasSuffix (s suffix : String) : Bool := suffix.data.isSuffixOf s.data

/-- Model of `loadFileConfig` (file.go lines 225-248) after the read and the
external decode: `decodeResult` is what `readFile` + `CreateConfiguration` /
`DecodeConfiguration` produce (`.error` for a read or decode failure,
`.ok none` for a nil `*types.Configuration`, `.ok (some c)` otherwise).
If the result is nil, or all three containers are nil, the code substitutes
`&types.Configuration{Frontends: make(...), Backends: make(...)}` — note the
`TLS` field of that literal is the zero value, a nil slice. -/
def loadFileConfig (decodeResult : Except String (Option Configuration)) :
    Except String Configuration :=
  match decodeResult with
  | .error e => .error e
  | .ok none => .ok { Backends := some [], Frontends := some [], TLS := none }
  | .ok (some c) =>
    if c.Backends = none ∧ c.Frontends = none ∧ c.TLS = none then
      .ok { Backends := some [], Frontends := some [], TLS := none }
    else
      .ok c

/-- A node of the directory tree walked by `loadFileConfigFromDirectory`:
a file carries the decoder's result for it, a directory carries the result
of `ioutil.ReadDir` (`readErr = some e` models a failing listing) and its
entries in listing order. -/
inductive FsEntry where
  | file (name : String) (decodeResult : Except String (Option Configuration))
  | dir (name : String) (readErr : Option String) (entries : List FsEntry)
deriving Repr

/-- One merge loop of `loadFileConfigFromDirectory` (the backend loop, lines
291-298, and the identical frontend loop, lines 300-307): fold the fragment's
entries into the accumulator, keeping an existing entry and warning on a name
collision, inserting otherwise. -/
def mergeMapEntries (mk : String → Warning) (acc : List (String × Nat)) :
    List (String × Nat) → List (String × Nat) × List Warning
  | [] => (acc, [])
  | kv :: rest =>
    if (lookupKey kv.1 acc).isSome then
      let r := mergeMapEntries mk acc rest
      (r.1, mk kv.1 :: r.2)
    else
      mergeMapEntries mk (acc ++ [kv]) rest

/-- TLS loop of `loadFileConfigFromDirectory` (lines 309-315): fold the
fragment's TLS pointers into the per-directory identity set `configTLSMaps`,
warning on a duplicate. The set is modelled as its insertion-order list. -/
def mergeTLSEntries (tlsSet : List Nat) : List Nat → List Nat × List Warning
  | [] => (tlsSet, [])
  | c :: rest =>
    if tlsSet.contains c then
      let r := mergeTLSEntries tlsSet rest
      (r.1, Warning.tlsConflict c :: r.2)
    else
      mergeTLSEntries (tlsSet ++ [c]) rest

/-- Final loop of `loadFileConfigFromDirectory` (lines 317-319): append every
member of `configTLSMaps` to `configuration.TLS` (a Go `append` to a nil slice
yields a non-nil slice; zero appends leave the field untouched). -/
def appendTLS (cfg : Configuration) (tlsSet : List Nat) : Configuration :=
  match tlsSet with
  | [] => cfg
  | _ => { cfg with TLS := some (cfg.TLS.getD [] ++ tlsSet) }

/-- Body of the `for _, item := range fileList` loop of
`loadFileConfigFromDirectory` (file.go lines 257-316), processing the listing
`entries` of one directory against the accumulator `cfg` and the
per-directory TLS identity set `tlsSet`:

* a subdirectory entry re-enters `loadFileConfigFromDirectory` with the
  current accumulator (its own `ReadDir`, its own fresh `configTLSMaps`, its
  own trailing TLS append), and its error is wrapped
  (`unable to load content configuration from subdirectory ...`);
* a file whose name ends neither in `.toml` nor `.tmpl` is skipped;
* a recognized file is loaded by `loadFileConfig`; a load error aborts the
  whole walk; otherwise its backends, frontends and TLS entries are merged.

In the Go code the accumulator's maps are always non-nil here (initialized by
the caller when the passed configuration is nil); the `Option.getD []`
reading of the accumulator maps is only exercised on that initialized state. -/
def processEntries (entries : List FsEntry) (cfg : Configuration) (tlsSet : List Nat) :
    Except String (Configuration × List Nat × List Warning) :=
  match entries with
  | [] => .ok (cfg, tlsSet, [])
  | FsEntry.dir _ readErr sub :: rest =>
    match readErr with
    | some e =>
      .error ("unable to load content configuration from subdirectory: unable to read directory: " ++ e)
    | none =>
      match processEntries sub cfg [] with
      | .error e => .error ("unable to load content configuration from subdirectory: " ++ e)
      | .ok (subCfg, subTls, subWs) =>
        match processEntries rest (appendTLS subCfg subTls) tlsSet with
        | .error e => .error e
        | .ok (cfg'', tls'', ws') => .ok (cfg'', tls'', subWs ++ ws')
  | FsEntry.file name decodeResult :: rest =>
    if hasSuffix name ".toml" || hasSuffix name ".tmpl" then
      match loadFileConfig decodeResult with
      | .error e => .error e
      | .ok c =>
        let rb := mergeMapEntries Warning.backendConflict (cfg.Backends.getD []) (c.Backends.getD [])
        let rf := mergeMapEntries Warning.frontendConflict (cfg.Frontends.getD []) (c.Frontends.getD [])
        let rt := mergeTLSEntries tlsSet (c.TLS.getD [])
        match processEntries rest { cfg with Backends := some rb.1, Frontends := some rf.1 } rt.1 with
        | .error e => .error e
        | .ok (cfg'', tls'', ws') => .ok (cfg'', tls'', (rb.2 ++ rf.2 ++ rt.2) ++ ws')
    else
      processEntries rest cfg tlsSet

/-- Model of `loadFileConfigFromDirectory` (file.go lines 250-321) on one
directory: `readErr` is the outcome of `ioutil.ReadDir` on it, `entries` its
listing, `configuration` the accumulator argument (nil on the first call, in
which case an empty configuration with non-nil maps and a nil TLS slice is
created). Returns the merged configuration together with the warnings the Go
code would log. -/
def loadFileConfigFromDirectory (readErr : Option String) (entries : List FsEntry)
    (configuration : Option Configuration) : Except String (Configuration × List Warning) :=
  match readErr with
  | some e => .error ("unable to read directory: " ++ e)
  | none =>
    let cfg := configuration.getD { Backends := some [], Frontends := some [], TLS := none }
    match processEntries entries cfg [] with
    | .error e => .error e
    | .ok (cfg', tls', ws) => .ok (appendTLS cfg' tls', ws)

/-- Fragments the walk of `loadFileConfigFromDirectory` loads, in traversal
order (subdirectories in place, recursively; unrecognized files skipped);
errors where the walk would fail. This is the specification-side notion of
"every loaded fragment" used to state the merge claims. -/
def collectFragments : List FsEntry → Except String (List Configuration)
  | [] => .ok []
  | FsEntry.dir _ readErr sub :: rest =>
    match readErr with
    | some e => .error e
    | none =>
      match collectFragments sub with
      | .error e => .error e
      | .ok subFrags =>
        match collectFragments rest with
        | .error e => .error e
        | .ok restFrags => .ok (subFrags ++ restFrags)
  | FsEntry.file name decodeResult :: rest =>
    if hasSuffix name ".toml" || hasSuffix name ".tmpl" then
      match loadFileConfig decodeResult with
      | .error e => .error e
      | .ok c =>
        match collectFragments rest with
        | .error e => .error e
        | .ok restFrags => .ok (c :: restFrags)
    else
      collectFragments rest

/-- Concatenated backend entries of a fragment list (the union, in traversal
order, of every fragment's backend map). -/
def fragBackends (frags : List Configuration) : List (String × Nat) :=
  (frags.map fun c => c.Backends.getD []).flatten

/-- Concatenated frontend entries of a fragment list. -/
def fragFrontends (frags : List Configuration) : List (String × Nat) :=
  (frags.map fun c => c.Frontends.getD []).flatten

/-- The tree contains a recognized fragment file whose load fails. -/
def anyFailingFragment : List FsEntry → Bool
  | [] => false
  | FsEntry.file name decodeResult :: rest =>
    ((hasSuffix name ".toml" || hasSuffix name ".tmpl") &&
      (match loadFileConfig decodeResult with
       | .error _ => true
       | .ok _ => false)) ||
    anyFailingFragment rest
  | FsEntry.dir _ _ sub :: rest => anyFailingFragment sub || anyFailingFragment rest

theorem lookupKey_append {β : Type} (k : String) (l₁ l₂ : List (String × β)) :
    lookupKey k (l₁ ++ l₂) =
      match lookupKey k l₁ with
      | some v => some v
      | none => lookupKey k l₂ := by
  induction l₁ with
  | nil => simp [lookupKey]
  | cons kv rest ih =>
    by_cases h : kv.1 = k
    · simp [lookupKey, h]
    · simpa [lookupKey, h] using ih

theorem lookupKey_eq_none_of_not_mem {β : Type} (k : String) (l : List (String × β))
    (h : k ∉ l.map Prod.fst) : lookupKey k l = none := by
  induction l with
  | nil => rfl
  | cons kv rest ih =>
    simp only [List.map_cons, List.mem_cons] at h
    push_neg at h
    rw [lookupKey, if_neg (fun hk : kv.1 = k => h.1 hk.symm), ih h.2]

theorem lookupKey_isSome_of_mem {β : Type} (k : String) (l : List (String × β))
    (h : k ∈ l.map Prod.fst) : (lookupKey k l).isSome := by
  induction l with
  | nil => simp at h
  | cons kv rest ih =>
    simp only [List.map_cons, List.mem_cons] at h
    by_cases hk : kv.1 = k
    · simp [lookupKey, hk]
    · rcases h with h | h
      · exact absurd h.symm hk
      · simpa [lookupKey, hk] using ih h

theorem mergeMapEntries_disjoint (mk : String → Warning) (acc frag : List (String × Nat))
    (hdisj : ∀ k ∈ frag.map Prod.fst, lookupKey k acc = none)
    (hnodup : (frag.map Prod.fst).Nodup) :
    mergeMapEntries mk acc frag = (acc ++ frag, []) := by
  induction frag generalizing acc with
  | nil => simp [mergeMapEntries]
  | cons kv rest ih =>
    have hhead : lookupKey kv.1 acc = none := hdisj kv.1 (by simp)
    simp only [List.map_cons, List.nodup_cons] at hnodup
    have hrest : ∀ k ∈ rest.map Prod.fst, lookupKey k (acc ++ [kv]) = none := by
      intro k hk
      rw [lookupKey_append, hdisj k (by simp [hk])]
      have : kv.1 ≠ k := fun h => hnodup.1 (h ▸ hk)
      simp [lookupKey, this]
    rw [mergeMapEntries, hhead]
    simp only [Option.isSome_none, Bool.false_eq_true, if_false]
    rw [ih (acc ++ [kv]) hrest hnodup.2]
    simp

theorem mergeMapEntries_keeps_existing (mk : String → Warning) (acc frag : List (String × Nat))
    (k : String) (v : Nat) (h : lookupKey k acc = some v) :
    lookupKey k (mergeMapEntries mk acc frag).1 = some v := by
  induction frag generalizing acc with
  | nil => simpa [mergeMapEntries]
  | cons kv rest ih =>
    rw [mergeMapEntries]
    by_cases hc : (lookupKey kv.1 acc).isSome
    · simp only [hc, if_true]
      exact ih acc h
    · simp only [hc, if_false]
      exact ih (acc ++ [kv]) (by rw [lookupKey_append, h])

theorem mergeMapEntries_no_warning_of_not_mem (mk : String → Warning)
    (hinj : ∀ a b, mk a = mk b → a = b) (acc frag : List (String × Nat)) (k : String)
    (h : k ∉ frag.map Prod.fst) :
    (mergeMapEntries mk acc frag).2.count (mk k) = 0 := by
  induction frag generalizing acc with
  | nil => simp [mergeMapEntries]
  | cons kv rest ih =>
    simp only [List.map_cons, List.mem_cons] at h
    push_neg at h
    rw [mergeMapEntries]
    by_cases hc : (lookupKey kv.1 acc).isSome
    · simp only [hc, if_true]
      rw [List.count_cons]
      have hne : ¬ mk kv.1 = mk k := fun he => h.1 (hinj kv.1 k he).symm
      simp [hne, ih acc h.2]
    · simp only [Bool.not_eq_true] at hc
      simp only [hc, Bool.false_eq_true, if_false]
      exact ih (acc ++ [kv]) h.2

theorem mergeMapEntries_one_warning (mk : String → Warning)
    (hinj : ∀ a b, mk a = mk b → a = b) (acc frag : List (String × Nat)) (k : String)
    (hmem : k ∈ frag.map Prod.fst) (hnodup : (frag.map Prod.fst).Nodup)
    (hacc : (lookupKey k acc).isSome) :
    (mergeMapEntries mk acc frag).2.count (mk k) = 1 := by
  induction frag generalizing acc with
  | nil => simp at hmem
  | cons kv rest ih =>
    simp only [List.map_cons, List.nodup_cons] at hnodup
    simp only [List.map_cons, List.mem_cons] at hmem
    rw [mergeMapEntries]
    rcases hmem with hmem | hmem
    · subst hmem
      simp only [hacc, if_true]
      rw [List.count_cons]
      simp [mergeMapEntries_no_warning_of_not_mem mk hinj acc rest kv.1 hnodup.1]
    · have hne : kv.1 ≠ k := fun he => hnodup.1 (he ▸ hmem)
      by_cases hc : (lookupKey kv.1 acc).isSome
      · simp only [hc, if_true]
        rw [List.count_cons]
        have hne' : ¬ mk kv.1 = mk k := fun he => hne (hinj kv.1 k he)
        simp [hne', ih acc hmem hnodup.2 hacc]
      · simp only [Bool.not_eq_true] at hc
        simp only [hc, Bool.false_eq_true, if_false]
        refine ih (acc ++ [kv]) hmem hnodup.2 ?_
        rw [lookupKey_append]
        rcases ha : lookupKey k acc with _ | v
        · rw [ha] at hacc; simp at hacc
        · simp

theorem appendTLS_Backends (cfg : Configuration) (t : List Nat) :
    (appendTLS cfg t).Backends = cfg.Backends := by
  cases t <;> rfl

theorem appendTLS_Frontends (cfg : Configuration) (t : List Nat) :
    (appendTLS cfg t).Frontends = cfg.Frontends := by
  cases t <;> rfl

theorem fragBackends_cons (c : Configuration) (frags : List Configuration) :
    fragBackends (c :: frags) = c.Backends.getD [] ++ fragBackends frags := by
  simp [fragBackends]

theorem fragBackends_append (a b : List Configuration) :
    fragBackends (a ++ b) = fragBackends a ++ fragBackends b := by
  simp [fragBackends]

theorem fragFrontends_cons (c : Configuration) (frags : List Configuration) :
    fragFrontends (c :: frags) = c.Frontends.getD [] ++ fragFrontends frags := by
  simp [fragFrontends]

theorem fragFrontends_append (a b : List Configuration) :
    fragFrontends (a ++ b) = fragFrontends a ++ fragFrontends b := by
  simp [fragFrontends]

theorem collectFragments_dir_ok (name : String) (readErr : Option String)
    (sub rest : List FsEntry) (frags : List Configuration)
    (h : collectFragments (FsEntry.dir name readErr sub :: rest) = .ok frags) :
    readErr = none ∧ ∃ subFrags restFrags, collectFragments sub = .ok subFrags ∧
      collectFragments rest = .ok restFrags ∧ frags = subFrags ++ restFrags := by
  cases readErr with
  | some e => simp [collectFragments] at h
  | none =>
    simp only [collectFragments] at h
    cases hsub : collectFragments sub with
    | error e => rw [hsub] at h; simp at h
    | ok subFrags =>
      rw [hsub] at h
      cases hrest : collectFragments rest with
      | error e => rw [hrest] at h; simp at h
      | ok restFrags =>
        rw [hrest] at h
        simp only [Except.ok.injEq] at h
        exact ⟨rfl, subFrags, restFrags, rfl, rfl, h.symm⟩

theorem collectFragments_file_ok (name : String)
    (decodeResult : Except String (Option Configuration)) (rest : List FsEntry)
    (frags : List Configuration)
    (hrec : (hasSuffix name ".toml" || hasSuffix name ".tmpl") = true)
    (h : collectFragments (FsEntry.file name decodeResult :: rest) = .ok frags) :
    ∃ c restFrags, loadFileConfig decodeResult = .ok c ∧
      collectFragments rest = .ok restFrags ∧ frags = c :: restFrags := by
  simp only [collectFragments, hrec, if_true] at h
  cases hload : loadFileConfig decodeResult with
  | error e => rw [hload] at h; simp at h
  | ok c =>
    rw [hload] at h
    cases hrest : collectFragments rest with
    | error e => rw [hrest] at h; simp at h
    | ok restFrags =>
      rw [hrest] at h
      simp only [Except.ok.injEq] at h
      exact ⟨c, restFrags, rfl, rfl, h.symm⟩

theorem collectFragments_skip (name : String)
    (decodeResult : Except String (Option Configuration)) (rest : List FsEntry)
    (hrec : ¬ (hasSuffix name ".toml" || hasSuffix name ".tmpl") = true) :
    collectFragments (FsEntry.file name decodeResult :: rest) = collectFragments rest := by
  simp [collectFragments, hrec]

theorem keysNodup_of_append_left (l₁ l₂ : List (String × Nat))
    (h : ((l₁ ++ l₂).map Prod.fst).Nodup) : (l₁.map Prod.fst).Nodup := by
  rw [List.map_append] at h
  exact h.of_append_left

theorem keys_facts (bs cB : List (String × Nat)) (h : ((bs ++ cB).map Prod.fst).Nodup) :
    (∀ k ∈ cB.map Prod.fst, lookupKey k bs = none) ∧ (cB.map Prod.fst).Nodup := by
  rw [List.map_append, List.nodup_append] at h
  exact ⟨fun k hk => lookupKey_eq_none_of_not_mem k bs (fun hmem => h.2.2 hmem hk), h.2.1⟩

theorem processEntries_union (entries : List FsEntry) (cfg : Configuration) (tlsSet : List Nat) :
    ∀ frags bs fs, collectFragments entries = .ok frags →
      cfg.Backends = some bs → cfg.Frontends = some fs →
      ((bs ++ fragBackends frags).map Prod.fst).Nodup →
      ((fs ++ fragFrontends frags).map Prod.fst).Nodup →
      ∃ cfg' tls' ws, processEntries entries cfg tlsSet = .ok (cfg', tls', ws) ∧
        cfg'.Backends = some (bs ++ fragBackends frags) ∧
        cfg'.Frontends = some (fs ++ fragFrontends frags) := by
  induction entries, cfg, tlsSet using processEntries.induct with
  | case1 cfg tlsSet =>
    intro frags bs fs hcol hb hf _hnb _hnf
    simp only [collectFragments, Except.ok.injEq] at hcol
    subst hcol
    exact ⟨cfg, tlsSet, [], by simp only [processEntries], by simp [fragBackends, hb],
      by simp [fragFrontends, hf]⟩
  | case2 cfg tlsSet name sub rest e =>
    intro frags bs fs hcol _ _ _ _
    simp [collectFragments] at hcol
  | case3 cfg tlsSet name sub rest e herr ih =>
    intro frags bs fs hcol hb hf hnb hnf
    obtain ⟨-, subFrags, restFrags, hsub, _hrest, rfl⟩ :=
      collectFragments_dir_ok name none sub rest frags hcol
    rw [fragBackends_append] at hnb
    rw [fragFrontends_append] at hnf
    obtain ⟨cfg', tls', ws, hok, -, -⟩ :=
      ih subFrags bs fs hsub hb hf
        (keysNodup_of_append_left _ (fragBackends restFrags) (by simpa [List.append_assoc] using hnb))
        (keysNodup_of_append_left _ (fragFrontends restFrags) (by simpa [List.append_assoc] using hnf))
    rw [herr] at hok
    exact absurd hok (by simp)
  | case4 cfg tlsSet name sub rest cfgS tlsS wsS hsubok e herr ihSub ihRest =>
    intro frags bs fs hcol hb hf hnb hnf
    obtain ⟨-, subFrags, restFrags, hsub, hrest, rfl⟩ :=
      collectFragments_dir_ok name none sub rest frags hcol
    rw [fragBackends_append] at hnb
    rw [fragFrontends_append] at hnf
    obtain ⟨cfg', tls', ws, hok, hbacks, hfronts⟩ :=
      ihSub subFrags bs fs hsub hb hf
        (keysNodup_of_append_left _ (fragBackends restFrags) (by simpa [List.append_assoc] using hnb))
        (keysNodup_of_append_left _ (fragFrontends restFrags) (by simpa [List.append_assoc] using hnf))
    rw [hsubok] at hok
    obtain ⟨rfl, rfl, rfl⟩ : cfgS = cfg' ∧ tlsS = tls' ∧ wsS = ws := by
      simpa [Prod.ext_iff] using hok
    obtain ⟨cfg₂, tls₂, ws₂, hok₂, -, -⟩ :=
      ihRest restFrags (bs ++ fragBackends subFrags) (fs ++ fragFrontends subFrags) hrest
        (by rw [appendTLS_Backends]; exact hbacks)
        (by rw [appendTLS_Frontends]; exact hfronts)
        (by simpa [List.append_assoc] using hnb)
        (by simpa [List.append_assoc] using hnf)
    rw [herr] at hok₂
    exact absurd hok₂ (by simp)
  | case5 cfg tlsSet name sub rest cfgS tlsS wsS hsubok cfgR tlsR wsR hrestok ihSub ihRest =>
    intro frags bs fs hcol hb hf hnb hnf
    obtain ⟨-, subFrags, restFrags, hsub, hrest, rfl⟩ :=
      collectFragments_dir_ok name none sub rest frags hcol
    rw [fragBackends_append] at hnb
    rw [fragFrontends_append] at hnf
    obtain ⟨cfg', tls', ws, hok, hbacks, hfronts⟩ :=
      ihSub subFrags bs fs hsub hb hf
        (keysNodup_of_append_left _ (fragBackends restFrags) (by simpa [List.append_assoc] using hnb))
        (keysNodup_of_append_left _ (fragFrontends restFrags) (by simpa [List.append_assoc] using hnf))
    rw [hsubok] at hok
    obtain ⟨rfl, rfl, rfl⟩ : cfgS = cfg' ∧ tlsS = tls' ∧ wsS = ws := by
      simpa [Prod.ext_iff] using hok
    obtain ⟨cfg₂, tls₂, ws₂, hok₂, hbacks₂, hfronts₂⟩ :=
      ihRest restFrags (bs ++ fragBackends subFrags) (fs ++ fragFrontends subFrags) hrest
        (by rw [appendTLS_Backends]; exact hbacks)
        (by rw [appendTLS_Frontends]; exact hfronts)
        (by simpa [List.append_assoc] using hnb)
        (by simpa [List.append_assoc] using hnf)
    rw [hrestok] at hok₂
    obtain ⟨rfl, rfl, rfl⟩ : cfgR = cfg₂ ∧ tlsR = tls₂ ∧ wsR = ws₂ := by
      simpa [Prod.ext_iff] using hok₂
    refine ⟨cfgR, tlsR, wsS ++ wsR, ?_, ?_, ?_⟩
    · simp only [processEntries, hsubok, hrestok]
    · rw [hbacks₂, fragBackends_append, List.append_assoc]
    · rw [hfronts₂, fragFrontends_append, List.append_assoc]
  | case6 cfg tlsSet name decodeResult rest hrec e hload =>
    intro frags bs fs hcol _ _ _ _
    obtain ⟨c, restFrags, hload', -, -⟩ :=
      collectFragments_file_ok name decodeResult rest frags hrec hcol
    rw [hload] at hload'
    exact absurd hload' (by simp)
  | case7 cfg tlsSet name decodeResult rest hrec c hload rb rf rt e herr ihRest =>
    intro frags bs fs hcol hb hf hnb hnf
    obtain ⟨c', restFrags, hload', hrest, rfl⟩ :=
      collectFragments_file_ok name decodeResult rest frags hrec hcol
    rw [hload] at hload'
    obtain rfl : c = c' := by simpa using hload'
    rw [fragBackends_cons] at hnb
    rw [fragFrontends_cons] at hnf
    have hkB := keys_facts bs (c.Backends.getD [])
      (keysNodup_of_append_left _ (fragBackends restFrags)
        (by simpa [List.append_assoc] using hnb))
    have hkF := keys_facts fs (c.Frontends.getD [])
      (keysNodup_of_append_left _ (fragFrontends restFrags)
        (by simpa [List.append_assoc] using hnf))
    have hmB := mergeMapEntries_disjoint Warning.backendConflict bs (c.Backends.getD []) hkB.1 hkB.2
    have hmF := mergeMapEntries_disjoint Warning.frontendConflict fs (c.Frontends.getD []) hkF.1 hkF.2
    unfold rb rf rt at herr ihRest
    simp only [hb, hf, Option.getD_some, hmB, hmF] at herr ihRest
    obtain ⟨cfg', tls', ws, hok, -, -⟩ :=
      ihRest restFrags (bs ++ c.Backends.getD []) (fs ++ c.Frontends.getD []) hrest rfl rfl
        (by simpa [List.append_assoc] using hnb)
        (by simpa [List.append_assoc] using hnf)
    rw [herr] at hok
    exact absurd hok (by simp)
  | case8 cfg tlsSet name decodeResult rest hrec c hload rb rf rt cfgR tlsR wsR hrestok ihRest =>
    intro frags bs fs hcol hb hf hnb hnf
    obtain ⟨c', restFrags, hload', hrest, rfl⟩ :=
      collectFragments_file_ok name decodeResult rest frags hrec hcol
    rw [hload] at hload'
    obtain rfl : c = c' := by simpa using hload'
    rw [fragBackends_cons] at hnb
    rw [fragFrontends_cons] at hnf
    have hkB := keys_facts bs (c.Backends.getD [])
      (keysNodup_of_append_left _ (fragBackends restFrags)
        (by simpa [List.append_assoc] using hnb))
    have hkF := keys_facts fs (c.Frontends.getD [])
      (keysNodup_of_append_left _ (fragFrontends restFrags)
        (by simpa [List.append_assoc] using hnf))
    have hmB := mergeMapEntries_disjoint Warning.backendConflict bs (c.Backends.getD []) hkB.1 hkB.2
    have hmF := mergeMapEntries_disjoint Warning.frontendConflict fs (c.Frontends.getD []) hkF.1 hkF.2
    unfold rb rf rt at hrestok ihRest
    simp only [hb, hf, Option.getD_some, hmB, hmF] at hrestok ihRest
    obtain ⟨cfg', tls', ws, hok, hbacks, hfronts⟩ :=
      ihRest restFrags (bs ++ c.Backends.getD []) (fs ++ c.Frontends.getD []) hrest rfl rfl
        (by simpa [List.append_assoc] using hnb)
        (by simpa [List.append_assoc] using hnf)
    rw [hrestok] at hok
    obtain ⟨rfl, rfl, rfl⟩ : cfgR = cfg' ∧ tlsR = tls' ∧ wsR = ws := by
      simpa [Prod.ext_iff] using hok
    refine ⟨cfgR, tlsR,
      ((mergeMapEntries Warning.backendConflict bs (c.Backends.getD [])).2 ++
        (mergeMapEntries Warning.frontendConflict fs (c.Frontends.getD [])).2 ++
        (mergeTLSEntries tlsSet (c.TLS.getD [])).2) ++ wsR, ?_, ?_, ?_⟩
    · simp only [processEntries, hrec, if_true, hload, hb, hf, Option.getD_some, hmB, hmF]
      rw [hrestok]
    · rw [hbacks, fragBackends_cons, List.append_assoc]
    · rw [hfronts, fragFrontends_cons, List.append_assoc]
  | case9 cfg tlsSet name decodeResult rest hrec ihRest =>
    intro frags bs fs hcol hb hf hnb hnf
    rw [collectFragments_skip name decodeResult rest hrec] at hcol
    obtain ⟨cfg', tls', ws, hok, hbacks, hfronts⟩ := ihRest frags bs fs hcol hb hf hnb hnf
    exact ⟨cfg', tls', ws, by rw [processEntries, if_neg hrec]; exact hok, hbacks, hfronts⟩

theorem mergeMapEntries_warnings_shape (mk : String → Warning) (acc l : List (String × Nat)) :
    ∀ w ∈ (mergeMapEntries mk acc l).2, ∃ k, w = mk k := by
  induction l generalizing acc with
  | nil => simp [mergeMapEntries]
  | cons kv rest ih =>
    rw [mergeMapEntries]
    by_cases hc : (lookupKey kv.1 acc).isSome
    · simp only [hc, if_true]
      intro w hw
      rcases List.mem_cons.mp hw with hw | hw
      · exact ⟨kv.1, hw⟩
      · exact ih acc w hw
    · simp only [Bool.not_eq_true] at hc
      simp only [hc, Bool.false_eq_true, if_false]
      exact ih (acc ++ [kv])

theorem mergeTLSEntries_warnings_shape (tlsSet l : List Nat) :
    ∀ w ∈ (mergeTLSEntries tlsSet l).2, ∃ t, w = Warning.tlsConflict t := by
  induction l generalizing tlsSet with
  | nil => simp [mergeTLSEntries]
  | cons c rest ih =>
    rw [mergeTLSEntries]
    by_cases hc : tlsSet.contains c
    · simp only [hc, if_true]
      intro w hw
      rcases List.mem_cons.mp hw with hw | hw
      · exact ⟨c, hw⟩
      · exact ih tlsSet w hw
    · simp only [Bool.not_eq_true] at hc
      simp only [hc, Bool.false_eq_true, if_false]
      exact ih (tlsSet ++ [c])

/-- C1: for every directory tree of fragment files whose backend names and
frontend names are pairwise distinct across fragments (and whose fragments
all load successfully, which is what makes them a tree *of fragment files*),
`loadFileConfigFromDirectory` succeeds and the resulting configuration's
backend and frontend maps are exactly the concatenation — hence the union —
of every loaded fragment's entries, in traversal order. -/
theorem loadFileConfigFromDirectory_union (entries : List FsEntry) (frags : List Configuration)
    (hcol : collectFragments entries = .ok frags)
    (hnb : ((fragBackends frags).map Prod.fst).Nodup)
    (hnf : ((fragFrontends frags).map Prod.fst).Nodup) :
    ∃ cfg ws, loadFileConfigFromDirectory none entries none = .ok (cfg, ws) ∧
      cfg.Backends = some (fragBackends frags) ∧
      cfg.Frontends = some (fragFrontends frags) := by
  obtain ⟨cfg', tls', ws, hok, hbacks, hfronts⟩ :=
    processEntries_union entries { Backends := some [], Frontends := some [], TLS := none }
      [] frags [] [] hcol rfl rfl (by simpa using hnb) (by simpa using hnf)
  refine ⟨appendTLS cfg' tls', ws, ?_, ?_, ?_⟩
  · simp only [loadFileConfigFromDirectory, Option.getD_none, hok]
  · rw [appendTLS_Backends, hbacks, List.nil_append]
  · rw [appendTLS_Frontends, hfronts, List.nil_append]

/-- Witness for C1 at the spec's end-to-end example: a root with `a.toml`
defining backend `X` and a subdirectory `b` with `b.toml` defining backend
`Y`; the merge succeeds with backends exactly `X` and `Y`. -/
theorem loadFileConfigFromDirectory_union_witness :
    ∃ cfg ws, loadFileConfigFromDirectory none
        [FsEntry.file "a.toml" (Except.ok (some ⟨some [("X", 1)], some [], none⟩)),
         FsEntry.dir "b" none
           [FsEntry.file "b.toml" (Except.ok (some ⟨some [("Y", 2)], none, none⟩))]]
        none = .ok (cfg, ws) ∧
      cfg.Backends = some (fragBackends
        [⟨some [("X", 1)], some [], none⟩, ⟨some [("Y", 2)], none, none⟩]) ∧
      cfg.Frontends = some (fragFrontends
        [⟨some [("X", 1)], some [], none⟩, ⟨some [("Y", 2)], none, none⟩]) :=
  loadFileConfigFromDirectory_union _ _
    (by simp +decide [collectFragments, loadFileConfig])
    (by decide) (by decide)

/-- C2: for every merge of a newly loaded fragment into the accumulator, the
merge succeeds with one result, and for each backend name the fragment
defines that is already present in the accumulator, the accumulator's
existing entry is kept unchanged, the new entry is discarded, and exactly
one warning is emitted for that name — and likewise, independently, for each
colliding frontend name; and because the whole merge is a pure function of
the filesystem state (the listing passed in), re-running it on the same
state returns the identical result, hence the same winner. -/
theorem merge_collision_first_write_wins
    (fname : String) (decodeResult : Except String (Option Configuration))
    (cfg : Configuration) (tlsSet : List Nat) (c : Configuration)
    (bs fs : List (String × Nat))
    (hrec : (hasSuffix fname ".toml" || hasSuffix fname ".tmpl") = true)
    (hload : loadFileConfig decodeResult = .ok c)
    (hb : cfg.Backends = some bs) (hf : cfg.Frontends = some fs) :
    ∃ cfg' tls' ws,
      processEntries [FsEntry.file fname decodeResult] cfg tlsSet = .ok (cfg', tls', ws) ∧
      (∀ bname v₀, lookupKey bname bs = some v₀ →
        bname ∈ (c.Backends.getD []).map Prod.fst →
        ((c.Backends.getD []).map Prod.fst).Nodup →
        lookupKey bname (cfg'.Backends.getD []) = some v₀ ∧
        ws.count (Warning.backendConflict bname) = 1) ∧
      (∀ fntname w₀, lookupKey fntname fs = some w₀ →
        fntname ∈ (c.Frontends.getD []).map Prod.fst →
        ((c.Frontends.getD []).map Prod.fst).Nodup →
        lookupKey fntname (cfg'.Frontends.getD []) = some w₀ ∧
        ws.count (Warning.frontendConflict fntname) = 1) ∧
      processEntries [FsEntry.file fname decodeResult] cfg tlsSet =
        processEntries [FsEntry.file fname decodeResult] cfg tlsSet := by
  have hinjB : ∀ a b, Warning.backendConflict a = Warning.backendConflict b → a = b :=
    fun a b h => by injection h
  have hinjF : ∀ a b, Warning.frontendConflict a = Warning.frontendConflict b → a = b :=
    fun a b h => by injection h
  refine ⟨{ cfg with
      Backends := some (mergeMapEntries Warning.backendConflict bs (c.Backends.getD [])).1,
      Frontends := some (mergeMapEntries Warning.frontendConflict fs (c.Frontends.getD [])).1 },
    (mergeTLSEntries tlsSet (c.TLS.getD [])).1,
    (mergeMapEntries Warning.backendConflict bs (c.Backends.getD [])).2 ++
      (mergeMapEntries Warning.frontendConflict fs (c.Frontends.getD [])).2 ++
      (mergeTLSEntries tlsSet (c.TLS.getD [])).2, ?_, ?_, ?_, rfl⟩
  · simp only [processEntries, hrec, if_true, hload, hb, hf, Option.getD_some, List.append_nil]
  · intro bname v₀ hbacc hbmem hbnodup
    refine ⟨mergeMapEntries_keeps_existing Warning.backendConflict bs _ bname v₀ hbacc, ?_⟩
    rw [List.count_append, List.count_append]
    rw [mergeMapEntries_one_warning Warning.backendConflict hinjB bs _ bname hbmem hbnodup
      (by rw [hbacc]; rfl)]
    have hzF : (mergeMapEntries Warning.frontendConflict fs
        (c.Frontends.getD [])).2.count (Warning.backendConflict bname) = 0 := by
      rw [List.count_eq_zero]
      intro hmem
      obtain ⟨k, hk⟩ := mergeMapEntries_warnings_shape _ _ _ _ hmem
      simp at hk
    have hzT : (mergeTLSEntries tlsSet
        (c.TLS.getD [])).2.count (Warning.backendConflict bname) = 0 := by
      rw [List.count_eq_zero]
      intro hmem
      obtain ⟨t, ht⟩ := mergeTLSEntries_warnings_shape _ _ _ hmem
      simp at ht
    rw [hzF, hzT]
  · intro fntname w₀ hfacc hfmem hfnodup
    refine ⟨mergeMapEntries_keeps_existing Warning.frontendConflict fs _ fntname w₀ hfacc, ?_⟩
    rw [List.count_append, List.count_append]
    rw [mergeMapEntries_one_warning Warning.frontendConflict hinjF fs _ fntname hfmem hfnodup
      (by rw [hfacc]; rfl)]
    have hzB : (mergeMapEntries Warning.backendConflict bs
        (c.Backends.getD [])).2.count (Warning.frontendConflict fntname) = 0 := by
      rw [List.count_eq_zero]
      intro hmem
      obtain ⟨k, hk⟩ := mergeMapEntries_warnings_shape _ _ _ _ hmem
      simp at hk
    have hzT : (mergeTLSEntries tlsSet
        (c.TLS.getD [])).2.count (Warning.frontendConflict fntname) = 0 := by
      rw [List.count_eq_zero]
      intro hmem
      obtain ⟨t, ht⟩ := mergeTLSEntries_warnings_shape _ _ _ hmem
      simp at ht
    rw [hzB, hzT]

/-- Witness for C2 at the spec's backend-only scenario: the fragment
redefines backend `b`, already in the accumulator, while its frontend `g`
does not collide; the old value 1 wins and exactly one warning is emitted
for `b`. -/
theorem merge_collision_first_write_wins_witness :
    ∃ cfg' tls' ws,
      processEntries
        [FsEntry.file "x.toml" (Except.ok (some ⟨some [("b", 9)], some [("g", 8)], none⟩))]
        ⟨some [("b", 1)], some [("f", 2)], none⟩ [] = .ok (cfg', tls', ws) ∧
      lookupKey "b" (cfg'.Backends.getD []) = some 1 ∧
      ws.count (Warning.backendConflict "b") = 1 := by
  obtain ⟨cfg', tls', ws, hok, hB, -, -⟩ :=
    merge_collision_first_write_wins "x.toml"
      (Except.ok (some ⟨some [("b", 9)], some [("g", 8)], none⟩))
      ⟨some [("b", 1)], some [("f", 2)], none⟩ []
      ⟨some [("b", 9)], some [("g", 8)], none⟩ [("b", 1)] [("f", 2)]
      (by decide) rfl rfl rfl
  obtain ⟨h1, h2⟩ := hB "b" 1 rfl (by decide) (by decide)
  exact ⟨cfg', tls', ws, hok, h1, h2⟩

theorem processEntries_error_of_failing (entries : List FsEntry) (cfg : Configuration)
    (tlsSet : List Nat) :
    anyFailingFragment entries = true → ∃ e, processEntries entries cfg tlsSet = .error e := by
  induction entries, cfg, tlsSet using processEntries.induct with
  | case1 cfg tlsSet =>
    intro h
    simp [anyFailingFragment] at h
  | case2 cfg tlsSet name sub rest e =>
    intro _
    exact ⟨"unable to load content configuration from subdirectory: unable to read directory: " ++ e,
      by simp only [processEntries]⟩
  | case3 cfg tlsSet name sub rest e herr ih =>
    intro _
    exact ⟨"unable to load content configuration from subdirectory: " ++ e,
      by simp only [processEntries, herr]⟩
  | case4 cfg tlsSet name sub rest cfgS tlsS wsS hsubok e herr ihSub ihRest =>
    intro _
    exact ⟨e, by simp only [processEntries, hsubok, herr]⟩
  | case5 cfg tlsSet name sub rest cfgS tlsS wsS hsubok cfgR tlsR wsR hrestok ihSub ihRest =>
    intro h
    simp only [anyFailingFragment, Bool.or_eq_true] at h
    rcases h with h | h
    · obtain ⟨e, he⟩ := ihSub h
      rw [hsubok] at he
      exact absurd he (by simp)
    · obtain ⟨e, he⟩ := ihRest h
      rw [hrestok] at he
      exact absurd he (by simp)
  | case6 cfg tlsSet name decodeResult rest hrec e hload =>
    intro _
    exact ⟨e, by simp only [processEntries, hrec, if_true, hload]⟩
  | case7 cfg tlsSet name decodeResult rest hrec c hload rb rf rt e herr ihRest =>
    intro _
    refine ⟨e, ?_⟩
    unfold rb rf rt at herr
    simp only [processEntries, hrec, if_true, hload]
    rw [herr]
  | case8 cfg tlsSet name decodeResult rest hrec c hload rb rf rt cfgR tlsR wsR hrestok ihRest =>
    intro h
    simp only [anyFailingFragment, hload, hrec, Bool.true_and, Bool.or_eq_true] at h
    rcases h with h | h
    · exact absurd h (by simp)
    · obtain ⟨e, he⟩ := ihRest h
      rw [hrestok] at he
      exact absurd he (by simp)
  | case9 cfg tlsSet name decodeResult rest hrec ihRest =>
    intro h
    have h' : anyFailingFragment rest = true := by
      simp only [anyFailingFragment, Bool.or_eq_true] at h
      rcases h with h | h
      · rw [Bool.and_eq_true] at h
        exact absurd h.1 hrec
      · exact h
    obtain ⟨e, he⟩ := ihRest h'
    exact ⟨e, by rw [processEntries, if_neg hrec]; exact he⟩

/-- C5: for every directory tree in which some recognized fragment file fails
to load (read or decode error), `loadFileConfigFromDirectory` returns an
error, whatever the accumulator argument — the walk never skips the failing
fragment and continues. -/
theorem loadFileConfigFromDirectory_error_on_failing_fragment (readErr : Option String)
    (entries : List FsEntry) (configuration : Option Configuration)
    (h : anyFailingFragment entries = true) :
    ∃ e, loadFileConfigFromDirectory readErr entries configuration = .error e := by
  cases readErr with
  | some e =>
    exact ⟨"unable to read directory: " ++ e, by simp only [loadFileConfigFromDirectory]⟩
  | none =>
    obtain ⟨e, he⟩ := processEntries_error_of_failing entries
      (configuration.getD { Backends := some [], Frontends := some [], TLS := none }) [] h
    exact ⟨e, by simp only [loadFileConfigFromDirectory, he]⟩

/-- Witness for C5: a tree with one good fragment and one fragment whose
decode fails aborts the whole merge with an error. -/
theorem loadFileConfigFromDirectory_error_on_failing_fragment_witness :
    ∃ e, loadFileConfigFromDirectory none
      [FsEntry.file "good.toml" (Except.ok (some ⟨some [("X", 1)], none, none⟩)),
       FsEntry.file "bad.toml" (Except.error "parse error")] none = .error e :=
  loadFileConfigFromDirectory_error_on_failing_fragment none _ none
    (by simp +decide [anyFailingFragment, loadFileConfig])

/-- C3 counterexample: a successful single-file load from a decoder result
that is non-null but only partially absent (nil backends, non-nil frontends)
is returned unchanged, so the build pipeline returns a configuration whose
`Backends` map is nil — refuting the claim for partial decoder results. -/
theorem loadFileConfig_partial_nil_backends_cex :
    loadFileConfig (Except.ok (some ⟨none, some [("f", 1)], none⟩)) =
        Except.ok ⟨none, some [("f", 1)], none⟩ ∧
      (⟨none, some [("f", 1)], none⟩ : Configuration).Backends = none :=
  ⟨rfl, rfl⟩

theorem processEntries_maps_isSome (entries : List FsEntry) (cfg : Configuration)
    (tlsSet : List Nat) :
    ∀ out, cfg.Backends.isSome = true → cfg.Frontends.isSome = true →
      processEntries entries cfg tlsSet = .ok out →
      out.1.Backends.isSome = true ∧ out.1.Frontends.isSome = true := by
  induction entries, cfg, tlsSet using processEntries.induct with
  | case1 cfg tlsSet =>
    intro out hb hf hok
    simp only [processEntries, Except.ok.injEq] at hok
    subst hok
    exact ⟨hb, hf⟩
  | case2 cfg tlsSet name sub rest e =>
    intro out _ _ hok
    simp only [processEntries] at hok
    exact absurd hok (by simp)
  | case3 cfg tlsSet name sub rest e herr ih =>
    intro out _ _ hok
    simp only [processEntries, herr] at hok
    exact absurd hok (by simp)
  | case4 cfg tlsSet name sub rest cfgS tlsS wsS hsubok e herr ihSub ihRest =>
    intro out _ _ hok
    simp only [processEntries, hsubok, herr] at hok
    exact absurd hok (by simp)
  | case5 cfg tlsSet name sub rest cfgS tlsS wsS hsubok cfgR tlsR wsR hrestok ihSub ihRest =>
    intro out hb hf hok
    simp only [processEntries, hsubok, hrestok, Except.ok.injEq] at hok
    subst hok
    have hS := ihSub (cfgS, tlsS, wsS) hb hf hsubok
    exact ihRest (cfgR, tlsR, wsR) (by rw [appendTLS_Backends]; exact hS.1)
      (by rw [appendTLS_Frontends]; exact hS.2) hrestok
  | case6 cfg tlsSet name decodeResult rest hrec e hload =>
    intro out _ _ hok
    simp only [processEntries, hrec, if_true, hload] at hok
    exact absurd hok (by simp)
  | case7 cfg tlsSet name decodeResult rest hrec c hload rb rf rt e herr ihRest =>
    intro out _ _ hok
    unfold rb rf rt at herr
    simp only [processEntries, hrec, if_true, hload, herr] at hok
    exact absurd hok (by simp)
  | case8 cfg tlsSet name decodeResult rest hrec c hload rb rf rt cfgR tlsR wsR hrestok ihRest =>
    intro out _ _ hok
    unfold rb rf rt at hrestok ihRest
    simp only [processEntries, hrec, if_true, hload, hrestok, Except.ok.injEq] at hok
    subst hok
    exact ihRest (cfgR, tlsR, wsR) rfl rfl hrestok
  | case9 cfg tlsSet name decodeResult rest hrec ihRest =>
    intro out hb hf hok
    rw [processEntries, if_neg hrec] at hok
    exact ihRest out hb hf hok

/-- C3 amended: the non-nil-maps invariant holds for every successful return
of the directory pipeline (`loadFileConfigFromDirectory` as invoked by
`BuildConfiguration`, with a nil initial accumulator), and for
`loadFileConfig` exactly when the decoder yields a null result or a result
with all three containers nil; a partial decoder result (only some
containers absent) is returned by `loadFileConfig` unchanged, so its nil
maps are passed through to the caller. -/
theorem build_pipeline_nonnil_maps :
    (∀ readErr entries cfg ws, loadFileConfigFromDirectory readErr entries none = .ok (cfg, ws) →
      cfg.Backends.isSome = true ∧ cfg.Frontends.isSome = true) ∧
    (∀ c, loadFileConfig (.ok none) = .ok c →
      c.Backends.isSome = true ∧ c.Frontends.isSome = true) ∧
    (∀ r c, r.Backends = none → r.Frontends = none → r.TLS = none →
      loadFileConfig (.ok (some r)) = .ok c →
      c.Backends.isSome = true ∧ c.Frontends.isSome = true) ∧
    (∀ r, ¬ (r.Backends = none ∧ r.Frontends = none ∧ r.TLS = none) →
      loadFileConfig (.ok (some r)) = .ok r) := by
  refine ⟨?_, ?_, ?_, ?_⟩
  · intro readErr entries cfg ws hok
    cases readErr with
    | some e => simp [loadFileConfigFromDirectory] at hok
    | none =>
      simp only [loadFileConfigFromDirectory, Option.getD_none] at hok
      cases hpe : processEntries entries { Backends := some [], Frontends := some [], TLS := none } [] with
      | error e => rw [hpe] at hok; simp at hok
      | ok out =>
        obtain ⟨cfg', tls', ws'⟩ := out
        rw [hpe] at hok
        simp only [Except.ok.injEq, Prod.mk.injEq] at hok
        obtain ⟨rfl, rfl⟩ := hok
        have h := processEntries_maps_isSome entries
          { Backends := some [], Frontends := some [], TLS := none } [] (cfg', tls', ws')
          rfl rfl hpe
        exact ⟨by rw [appendTLS_Backends]; exact h.1, by rw [appendTLS_Frontends]; exact h.2⟩
  · intro c h
    have : loadFileConfig (.ok none) =
        .ok { Backends := some [], Frontends := some [], TLS := none } := rfl
    rw [this] at h
    simp only [Except.ok.injEq] at h
    subst h
    exact ⟨rfl, rfl⟩
  · intro r c h1 h2 h3 h
    simp only [loadFileConfig, h1, h2, h3, and_self, if_true, Except.ok.injEq] at h
    subst h
    exact ⟨rfl, rfl⟩
  · intro r hcond
    simp only [loadFileConfig, if_neg hcond]

/-- Witness for the amended C3 at concrete inputs: a one-fragment directory
build returns non-nil maps; the null and all-nil decoder results are
normalized to non-nil maps; a partial result is passed through unchanged. -/
theorem build_pipeline_nonnil_maps_witness :
    ((⟨some [("X", 1)], some [], none⟩ : Configuration).Backends.isSome = true ∧
      (⟨some [("X", 1)], some [], none⟩ : Configuration).Frontends.isSome = true) ∧
    ((⟨some [], some [], none⟩ : Configuration).Backends.isSome = true ∧
      (⟨some [], some [], none⟩ : Configuration).Frontends.isSome = true) ∧
    loadFileConfig (.ok (some ⟨some [("b", 1)], none, none⟩)) =
      .ok ⟨some [("b", 1)], none, none⟩ :=
  ⟨build_pipeline_nonnil_maps.1 none
      [FsEntry.file "a.toml" (Except.ok (some ⟨some [("X", 1)], some [], none⟩))]
      ⟨some [("X", 1)], some [], none⟩ []
      (by simp +decide [loadFileConfigFromDirectory, processEntries, loadFileConfig,
        mergeMapEntries, mergeTLSEntries, appendTLS, lookupKey]),
    build_pipeline_nonnil_maps.2.1 ⟨some [], some [], none⟩ rfl,
    build_pipeline_nonnil_maps.2.2.2 ⟨some [("b", 1)], none, none⟩ (by simp)⟩

/-- C4 counterexample: for a file whose decoding yields a null result, the
loader substitutes the empty configuration literal, whose TLS field is left
at its zero value — a nil slice: the claim's "TLS sequence ... empty but
non-nil" fails on the code. -/
theorem loadFileConfig_empty_tls_nil_cex :
    loadFileConfig (Except.ok none) = Except.ok ⟨some [], some [], none⟩ ∧
      (⟨some [], some [], none⟩ : Configuration).TLS = none :=
  ⟨rfl, rfl⟩

/-- C4 amended: for every file whose decoding yields a null result, or a
non-null result whose backend map, frontend map and TLS sequence are all
nil, `loadFileConfig` returns a fragment whose backend and frontend maps are
empty but non-nil, and whose TLS sequence is empty because it is nil (the
substituted literal leaves the TLS field at its zero value, a nil slice). -/
theorem loadFileConfig_normalization (decodeResult : Except String (Option Configuration))
    (h : decodeResult = .ok none ∨ ∃ r, decodeResult = .ok (some r) ∧
      r.Backends = none ∧ r.Frontends = none ∧ r.TLS = none) :
    loadFileConfig decodeResult =
      .ok { Backends := some [], Frontends := some [], TLS := none } := by
  rcases h with rfl | ⟨r, rfl, h1, h2, h3⟩
  · rfl
  · simp [loadFileConfig, h1, h2, h3]

/-- Witness for the amended C4 at the null decoder result. -/
theorem loadFileConfig_normalization_witness :
    loadFileConfig (Except.ok none) =
      .ok { Backends := some [], Frontends := some [], TLS := none } :=
  loadFileConfig_normalization _ (Or.inl rfl)

/-- A filesystem object as seen by `getDirectoriesRecursively` (file.go lines
67-95): `missing` models a path whose `os.Stat` fails (with that error),
`file` a non-directory, `dir` a directory with the outcome of
`ioutil.ReadDir` and its listed children. A static listing never contains a
`missing` object; a `missing` child is treated as a non-directory entry. -/
inductive FsObj where
  | missing (statErr : String)
  | file (name : String)
  | dir (name : String) (readErr : Option String) (children : List FsObj)
deriving Repr

/-- Name of a listed object (`item.Name()`). -/
def objName : FsObj → String
  | .missing _ => ""
  | .file n => n
  | .dir n _ _ => n

/-- Go `item.IsDir()`. -/
def objIsDir : FsObj → Bool
  | .dir _ _ _ => true
  | _ => false

/-- Go `strings.TrimSuffix(rootDir, "/") + "/" + item.Name()` (file.go line
85): drop one trailing slash if present, then join. -/
def childPath (p name : String) : String :=
  (if hasSuffix p "/" then String.mk p.data.dropLast else p) ++ "/" ++ name

mutual

/-- Model of `getDirectoriesRecursively` (file.go lines 67-95) on a
filesystem object at path `rootDir`, threading the provider's
`watchedDirectories` map `wd`: stat failure is an error; a non-directory
returns `(nil, nil)` — the empty sequence with no error; a directory lists
its children (a `ReadDir` failure is an error), recurses into each child
directory in listing order, collects `rootDir` followed by the concatenated
recursive results, records that list in `watchedDirectories[rootDir]`, and
returns it. -/
def getDirectoriesRecursively (obj : FsObj) (rootDir : String)
    (wd : List (String × List String)) :
    Except String (List String × List (String × List String)) :=
  match obj with
  | .missing statErr => .error ("unable to stat: " ++ statErr)
  | .file _ => .ok ([], wd)
  | .dir _ readErr children =>
    match readErr with
    | some e => .error ("unable to initialize sub-directories list: " ++ e)
    | none =>
      match enumChildren children rootDir wd with
      | .error e => .error e
      | .ok (subDirs, wd') => .ok (rootDir :: subDirs, updateKey rootDir (rootDir :: subDirs) wd')

/-- The `for _, item := range fileList` loop of `getDirectoriesRecursively`
(file.go lines 83-92): recurse into each child that is a directory, wrap its
error, and append its result. -/
def enumChildren (children : List FsObj) (rootDir : String)
    (wd : List (String × List String)) :
    Except String (List String × List (String × List String)) :=
  match children with
  | [] => .ok ([], wd)
  | item :: rest =>
    if objIsDir item then
      match getDirectoriesRecursively item (childPath rootDir (objName item)) wd with
      | .error e => .error ("unable to initialize recursively sub-directories list: " ++ e)
      | .ok (subDir, wd') =>
        match enumChildren rest rootDir wd' with
        | .error e => .error e
        | .ok (subRest, wd'') => .ok (subDir ++ subRest, wd'')
    else
      enumChildren rest rootDir wd

end

mutual

/-- Specification-side order: the root-first, depth-first-per-subtree
sequence of directory paths of a subtree, as the spec's DirectoryEnumerator
contract describes the output (root, then every subdirectory reachable by
recursive descent). Empty for a non-directory. -/
def dfsDirList (obj : FsObj) (p : String) : List String :=
  match obj with
  | .dir _ _ children => p :: dfsDirListChildren children p
  | _ => []

def dfsDirListChildren (children : List FsObj) (p : String) : List String :=
  match children with
  | [] => []
  | item :: rest =>
    (if objIsDir item then dfsDirList item (childPath p (objName item)) else []) ++
      dfsDirListChildren rest p

end

mutual

/-- Every directory of the tree is readable (its `ReadDir` succeeds). -/
def allReadable : FsObj → Bool
  | .dir _ readErr children => readErr.isNone && allReadableList children
  | _ => true

def allReadableList : List FsObj → Bool
  | [] => true
  | c :: rest => allReadable c && allReadableList rest

end

mutual

/-- All directory nodes of a subtree, each paired with its path. -/
def dirNodes (obj : FsObj) (p : String) : List (String × FsObj) :=
  match obj with
  | .dir _ _ children => (p, obj) :: dirNodesChildren children p
  | _ => []

def dirNodesChildren (children : List FsObj) (p : String) : List (String × FsObj) :=
  match children with
  | [] => []
  | item :: rest =>
    (if objIsDir item then dirNodes item (childPath p (objName item)) else []) ++
      dirNodesChildren rest p

end

theorem lookupKey_updateKey_self {β : Type} (k : String) (v : β) (l : List (String × β)) :
    lookupKey k (updateKey k v l) = some v := by
  induction l with
  | nil => simp [updateKey, lookupKey]
  | cons kv rest ih =>
    by_cases h : kv.1 = k
    · simp [updateKey, lookupKey, h]
    · simp [updateKey, lookupKey, h, ih]

theorem lookupKey_updateKey_other {β : Type} (k k' : String) (v : β) (l : List (String × β))
    (h : k' ≠ k) : lookupKey k' (updateKey k v l) = lookupKey k' l := by
  have hkk : ¬ k = k' := fun hk => h hk.symm
  induction l with
  | nil => simp [updateKey, lookupKey, hkk]
  | cons kv rest ih =>
    by_cases hk : kv.1 = k
    · subst hk
      simp [updateKey, lookupKey, hkk, ih]
    · simp [updateKey, lookupKey, hk, ih]

theorem keysNodup_parts {β : Type} {l₁ l₂ : List (String × β)}
    (h : ((l₁ ++ l₂).map Prod.fst).Nodup) :
    (l₁.map Prod.fst).Nodup ∧ (l₂.map Prod.fst).Nodup ∧
      ∀ k, k ∈ l₁.map Prod.fst → k ∉ l₂.map Prod.fst := by
  rw [List.map_append, List.nodup_append] at h
  exact ⟨h.1, h.2.1, fun k hk => h.2.2 hk⟩

mutual

/-- Joint specification of the directory enumerator on a readable directory:
it returns exactly the root-first, depth-first-per-subtree path list, and
(when the subtree's paths are distinct, as on a real filesystem) the
watched-directories map afterwards holds, for every directory node of the
subtree, that node's own depth-first list, while every other key is
untouched. -/
theorem getDirectoriesRecursively_dfs (obj : FsObj) (p : String)
    (wd : List (String × List String))
    (hdir : objIsDir obj = true) (hread : allReadable obj = true) :
    ∃ wd', getDirectoriesRecursively obj p wd = .ok (dfsDirList obj p, wd') ∧
      (((dirNodes obj p).map Prod.fst).Nodup →
        (∀ q o, (q, o) ∈ dirNodes obj p → lookupKey q wd' = some (dfsDirList o q)) ∧
        (∀ q, q ∉ (dirNodes obj p).map Prod.fst → lookupKey q wd' = lookupKey q wd)) := by
  match obj with
  | FsObj.missing e => simp [objIsDir] at hdir
  | FsObj.file n => simp [objIsDir] at hdir
  | FsObj.dir n readErr children =>
    have hre : readErr = none := by
      cases readErr with
      | none => rfl
      | some e => simp [allReadable] at hread
    subst hre
    have hch : allReadableList children = true := by
      simpa [allReadable] using hread
    obtain ⟨wd₁, hok, hfacts⟩ := enumChildren_dfs children p wd hch
    refine ⟨updateKey p (p :: dfsDirListChildren children p) wd₁, ?_, ?_⟩
    · simp only [getDirectoriesRecursively, hok, dfsDirList]
    · intro hnodup
      rw [dirNodes, List.map_cons, List.nodup_cons] at hnodup
      obtain ⟨hfacts1, hfacts2⟩ := hfacts hnodup.2
      constructor
      · intro q o hmem
        rw [dirNodes, List.mem_cons] at hmem
        rcases hmem with hmem | hmem
        · obtain ⟨rfl, rfl⟩ : q = p ∧ o = FsObj.dir n none children := by
            simpa [Prod.ext_iff] using hmem
          rw [lookupKey_updateKey_self, dfsDirList]
        · have hq : q ≠ p := by
            intro hqp
            subst hqp
            exact hnodup.1 (List.mem_map.mpr ⟨(q, o), hmem, rfl⟩)
          rw [lookupKey_updateKey_other p q _ _ hq]
          exact hfacts1 q o hmem
      · intro q hq
        rw [dirNodes, List.map_cons, List.mem_cons] at hq
        push_neg at hq
        rw [lookupKey_updateKey_other p q _ _ (fun hqp => hq.1 hqp)]
        exact hfacts2 q hq.2

/-- Joint specification of the child loop of the enumerator; see
`getDirectoriesRecursively_dfs`. -/
theorem enumChildren_dfs (children : List FsObj) (p : String)
    (wd : List (String × List String)) (hread : allReadableList children = true) :
    ∃ wd', enumChildren children p wd = .ok (dfsDirListChildren children p, wd') ∧
      (((dirNodesChildren children p).map Prod.fst).Nodup →
        (∀ q o, (q, o) ∈ dirNodesChildren children p → lookupKey q wd' = some (dfsDirList o q)) ∧
        (∀ q, q ∉ (dirNodesChildren children p).map Prod.fst →
          lookupKey q wd' = lookupKey q wd)) := by
  match children with
  | [] =>
    refine ⟨wd, by simp only [enumChildren, dfsDirListChildren], ?_⟩
    intro _
    exact ⟨by simp [dirNodesChildren], fun q _ => rfl⟩
  | item :: rest =>
    have hitem : allReadable item = true := by
      rw [allReadableList, Bool.and_eq_true] at hread
      exact hread.1
    have hrest : allReadableList rest = true := by
      rw [allReadableList, Bool.and_eq_true] at hread
      exact hread.2
    by_cases hd : objIsDir item = true
    · obtain ⟨wd₁, hok1, hfacts1⟩ :=
        getDirectoriesRecursively_dfs item (childPath p (objName item)) wd hd hitem
      obtain ⟨wd₂, hok2, hfacts2⟩ := enumChildren_dfs rest p wd₁ hrest
      refine ⟨wd₂, ?_, ?_⟩
      · simp only [enumChildren, hd, if_true, hok1, hok2, dfsDirListChildren]
      · intro hnodup
        rw [dirNodesChildren, if_pos hd] at hnodup
        obtain ⟨hnA, hnB, hdisj⟩ := keysNodup_parts hnodup
        obtain ⟨hA1, hA2⟩ := hfacts1 hnA
        obtain ⟨hB1, hB2⟩ := hfacts2 hnB
        constructor
        · intro q o hmem
          rw [dirNodesChildren, if_pos hd, List.mem_append] at hmem
          rcases hmem with hmem | hmem
          · rw [hB2 q (hdisj q (List.mem_map_of_mem Prod.fst hmem))]
            exact hA1 q o hmem
          · exact hB1 q o hmem
        · intro q hq
          rw [dirNodesChildren, if_pos hd, List.map_append, List.mem_append] at hq
          push_neg at hq
          rw [hB2 q hq.2, hA2 q hq.1]
    · obtain ⟨wd', hok, hfacts⟩ := enumChildren_dfs rest p wd hrest
      refine ⟨wd', ?_, ?_⟩
      · rw [enumChildren, if_neg hd, hok, dfsDirListChildren, if_neg hd, List.nil_append]
      · intro hnodup
        rw [dirNodesChildren, if_neg hd, List.nil_append] at hnodup
        obtain ⟨h1, h2⟩ := hfacts hnodup
        constructor
        · intro q o hmem
          rw [dirNodesChildren, if_neg hd, List.nil_append] at hmem
          exact h1 q o hmem
        · intro q hq
          rw [dirNodesChildren, if_neg hd, List.nil_append] at hq
          exact h2 q hq

end

mutual

/-- Every node recorded by `dirNodes` is a directory node. -/
theorem dirNodes_are_dirs (obj : FsObj) (p : String) :
    ∀ q o, (q, o) ∈ dirNodes obj p → objIsDir o = true := by
  match obj with
  | FsObj.missing e =>
    intro q o h
    simp [dirNodes] at h
  | FsObj.file n =>
    intro q o h
    simp [dirNodes] at h
  | FsObj.dir n re ch =>
    intro q o h
    rw [dirNodes, List.mem_cons] at h
    rcases h with h | h
    · obtain ⟨rfl, rfl⟩ : q = p ∧ o = FsObj.dir n re ch := by
        simpa [Prod.ext_iff] using h
      rfl
    · exact dirNodesChildren_are_dirs ch p q o h

/-- List form of `dirNodes_are_dirs`. -/
theorem dirNodesChildren_are_dirs (children : List FsObj) (p : String) :
    ∀ q o, (q, o) ∈ dirNodesChildren children p → objIsDir o = true := by
  match children with
  | [] =>
    intro q o h
    simp [dirNodesChildren] at h
  | item :: rest =>
    intro q o h
    rw [dirNodesChildren] at h
    by_cases hd : objIsDir item = true
    · rw [if_pos hd, List.mem_append] at h
      rcases h with h | h
      · exact dirNodes_are_dirs item _ q o h
      · exact dirNodesChildren_are_dirs rest p q o h
    · rw [if_neg hd, List.nil_append] at h
      exact dirNodesChildren_are_dirs rest p q o h

end

theorem dfsDirList_head_of_dir (o : FsObj) (q : String) (h : objIsDir o = true) :
    ∃ tail, dfsDirList o q = q :: tail := by
  match o with
  | FsObj.dir n re ch => exact ⟨dfsDirListChildren ch q, by rw [dfsDirList]⟩
  | FsObj.missing e => simp [objIsDir] at h
  | FsObj.file n => simp [objIsDir] at h

/-- C6: `getDirectoriesRecursively` fails with an error when the root cannot
be statted; returns the empty sequence and no error when the root exists but
is not a directory; and on a directory (readable throughout, which is what
makes its subtree reachable by recursive descent) it returns the root first,
followed by every subdirectory in root-first, depth-first-per-subtree
order. -/
theorem getDirectoriesRecursively_contract :
    (∀ statErr rootDir wd, getDirectoriesRecursively (FsObj.missing statErr) rootDir wd =
        .error ("unable to stat: " ++ statErr)) ∧
    (∀ n rootDir wd, getDirectoriesRecursively (FsObj.file n) rootDir wd =
        .ok ([], wd)) ∧
    (∀ n children rootDir wd, allReadable (FsObj.dir n none children) = true →
      ∃ wd', getDirectoriesRecursively (FsObj.dir n none children) rootDir wd =
        .ok (rootDir :: dfsDirListChildren children rootDir, wd')) := by
  refine ⟨?_, ?_, ?_⟩
  · intro statErr rootDir wd
    simp only [getDirectoriesRecursively]
  · intro n rootDir wd
    simp only [getDirectoriesRecursively]
  · intro n children rootDir wd hread
    obtain ⟨wd', hok, -⟩ :=
      getDirectoriesRecursively_dfs (FsObj.dir n none children) rootDir wd rfl hread
    rw [dfsDirList] at hok
    exact ⟨wd', hok⟩

/-- Witness for C6: a missing root errors; a plain-file root returns the
empty sequence without error; a small two-level directory returns the
depth-first path list. -/
theorem getDirectoriesRecursively_contract_witness :
    getDirectoriesRecursively (FsObj.missing "no such file") "/etc/conf" [] =
      .error ("unable to stat: " ++ "no such file") ∧
    getDirectoriesRecursively (FsObj.file "traefik.toml") "/etc/conf/traefik.toml" [] =
      .ok ([], []) ∧
    ∃ wd', getDirectoriesRecursively
        (FsObj.dir "conf" none [FsObj.file "a.toml", FsObj.dir "sub" none []]) "/etc/conf" [] =
      .ok ("/etc/conf" ::
        dfsDirListChildren [FsObj.file "a.toml", FsObj.dir "sub" none []] "/etc/conf", wd') :=
  ⟨getDirectoriesRecursively_contract.1 "no such file" "/etc/conf" [],
   getDirectoriesRecursively_contract.2.1 "traefik.toml" "/etc/conf/traefik.toml" [],
   getDirectoriesRecursively_contract.2.2 "conf" _ "/etc/conf" []
     (by simp [allReadable, allReadableList])⟩

/-- C10: after a successful `getDirectoriesRecursively` on a (readable)
directory whose subtree paths are distinct, the watched-directories mapping
holds an entry for the root and for every directory of its subtree, and each
key's recorded list is that directory's own root-first depth-first listing —
in particular the list starts with the key itself — so a later remove/rename
event on any watched subdirectory finds a mapping entry covering that whole
subtree. -/
theorem getDirectoriesRecursively_watch_index (n : String) (children : List FsObj)
    (rootDir : String) (wd : List (String × List String))
    (hread : allReadable (FsObj.dir n none children) = true)
    (hnodup : ((dirNodes (FsObj.dir n none children) rootDir).map Prod.fst).Nodup) :
    ∃ dirs wd',
      getDirectoriesRecursively (FsObj.dir n none children) rootDir wd = .ok (dirs, wd') ∧
      ∀ q o, (q, o) ∈ dirNodes (FsObj.dir n none children) rootDir →
        lookupKey q wd' = some (dfsDirList o q) ∧
        ∃ tail, dfsDirList o q = q :: tail := by
  obtain ⟨wd', hok, hfacts⟩ :=
    getDirectoriesRecursively_dfs (FsObj.dir n none children) rootDir wd rfl hread
  obtain ⟨h1, -⟩ := hfacts hnodup
  refine ⟨_, wd', hok, ?_⟩
  intro q o hmem
  exact ⟨h1 q o hmem,
    dfsDirList_head_of_dir o q (dirNodes_are_dirs (FsObj.dir n none children) rootDir q o hmem)⟩

/-- Witness for C10: a root with one subdirectory and one plain file; both
the root and the subdirectory end up in the mapping with their own
depth-first lists. -/
theorem getDirectoriesRecursively_watch_index_witness :
    ∃ dirs wd',
      getDirectoriesRecursively
        (FsObj.dir "root" none [FsObj.dir "a" none [], FsObj.file "x.toml"]) "/r" [] =
        .ok (dirs, wd') ∧
      ∀ q o, (q, o) ∈ dirNodes
          (FsObj.dir "root" none [FsObj.dir "a" none [], FsObj.file "x.toml"]) "/r" →
        lookupKey q wd' = some (dfsDirList o q) ∧
        ∃ tail, dfsDirList o q = q :: tail :=
  getDirectoriesRecursively_watch_index "root" [FsObj.dir "a" none [], FsObj.file "x.toml"]
    "/r" [] (by simp [allReadable, allReadableList])
    (by simp +decide [dirNodes, dirNodesChildren, objIsDir, objName, childPath, hasSuffix])

/-- Handling of a `Remove`/`Rename` event in directory-tree mode (file.go
lines 151-157): if the event path has an entry in `watchedDirectories`,
iterate its recorded list from the last element down to the first, calling
`watcher.Remove` and deleting the map entry for each; if it has none, do
nothing. Returns the updated map together with the sequence of
`watcher.Remove` calls, in call order. -/
def removeWatchedSubtree (wd : List (String × List String)) (evtName : String) :
    List (String × List String) × List String :=
  match lookupKey evtName wd with
  | none => (wd, [])
  | some subDirectories =>
    (subDirectories.reverse.foldl (fun w d => eraseKey d w) wd, subDirectories.reverse)

theorem lookupKey_eraseKey_self {β : Type} (k : String) (l : List (String × β)) :
    lookupKey k (eraseKey k l) = none := by
  induction l with
  | nil => rfl
  | cons kv rest ih =>
    by_cases h : kv.1 = k
    · simp [eraseKey, h, ih]
    · simp [eraseKey, lookupKey, h, ih]

theorem lookupKey_eraseKey_other {β : Type} (k k' : String) (l : List (String × β))
    (h : k' ≠ k) : lookupKey k' (eraseKey k l) = lookupKey k' l := by
  induction l with
  | nil => rfl
  | cons kv rest ih =>
    by_cases hk : kv.1 = k
    · subst hk
      have : ¬ kv.1 = k' := fun he => h he.symm
      simp [eraseKey, lookupKey, this, ih]
    · simp [eraseKey, lookupKey, hk, ih]

theorem lookupKey_foldl_eraseKey (l : List String) (wd : List (String × List String))
    (q : String) :
    lookupKey q (l.foldl (fun w d => eraseKey d w) wd) =
      if q ∈ l then none else lookupKey q wd := by
  induction l generalizing wd with
  | nil => simp
  | cons d rest ih =>
    simp only [List.foldl_cons]
    rw [ih]
    by_cases hq : q ∈ rest
    · simp [hq]
    · by_cases hqd : q = d
      · subst hqd
        simp [hq, lookupKey_eraseKey_self]
      · simp [hq, hqd, lookupKey_eraseKey_other d q wd hqd]

/-- C7: for a remove/rename event in directory-tree mode: if the event path
is a key of the watched-directories mapping, the watch handles of every entry
of its recorded list are removed in reverse order (deepest first) and every
corresponding mapping entry is deleted — afterwards the mapping contains
neither the path (which belongs to its own recorded list) nor any recorded
descendant, while unrelated keys are untouched; if the event path is not a
recorded key, the mapping is unchanged and no handle is removed. -/
theorem removeWatchedSubtree_spec (wd : List (String × List String)) (path : String) :
    (lookupKey path wd = none → removeWatchedSubtree wd path = (wd, [])) ∧
    (∀ subs, lookupKey path wd = some subs →
      (removeWatchedSubtree wd path).2 = subs.reverse ∧
      (∀ q, q ∈ subs → lookupKey q (removeWatchedSubtree wd path).1 = none) ∧
      (∀ q, q ∉ subs → lookupKey q (removeWatchedSubtree wd path).1 = lookupKey q wd) ∧
      (path ∈ subs → lookupKey path (removeWatchedSubtree wd path).1 = none)) := by
  constructor
  · intro h
    simp [removeWatchedSubtree, h]
  · intro subs h
    refine ⟨by simp [removeWatchedSubtree, h], ?_, ?_, ?_⟩
    · intro q hq
      simp only [removeWatchedSubtree, h]
      rw [lookupKey_foldl_eraseKey]
      simp [hq]
    · intro q hq
      simp only [removeWatchedSubtree, h]
      rw [lookupKey_foldl_eraseKey]
      simp [hq]
    · intro hp
      simp only [removeWatchedSubtree, h]
      rw [lookupKey_foldl_eraseKey]
      simp [hp]

/-- Witness for C7: removing the watched root of a two-entry subtree deletes
both of its entries, deepest first, and leaves an unrelated root alone; an
unrecorded path changes nothing. -/
theorem removeWatchedSubtree_spec_witness :
    removeWatchedSubtree [("/r", ["/r", "/r/a"]), ("/x", ["/x"])] "/none" =
      ([("/r", ["/r", "/r/a"]), ("/x", ["/x"])], []) ∧
    ((removeWatchedSubtree [("/r", ["/r", "/r/a"]), ("/x", ["/x"])] "/r").2 =
        ["/r", "/r/a"].reverse ∧
      (∀ q, q ∈ ["/r", "/r/a"] →
        lookupKey q (removeWatchedSubtree [("/r", ["/r", "/r/a"]), ("/x", ["/x"])] "/r").1 =
          none) ∧
      (∀ q, q ∉ ["/r", "/r/a"] →
        lookupKey q (removeWatchedSubtree [("/r", ["/r", "/r/a"]), ("/x", ["/x"])] "/r").1 =
          lookupKey q [("/r", ["/r", "/r/a"]), ("/x", ["/x"])]) ∧
      ("/r" ∈ ["/r", "/r/a"] →
        lookupKey "/r" (removeWatchedSubtree [("/r", ["/r", "/r/a"]), ("/x", ["/x"])] "/r").1 =
          none)) :=
  ⟨(removeWatchedSubtree_spec [("/r", ["/r", "/r/a"]), ("/x", ["/x"])] "/none").1 (by decide),
   (removeWatchedSubtree_spec [("/r", ["/r", "/r/a"]), ("/x", ["/x"])] "/r").2
     ["/r", "/r/a"] (by decide)⟩

/-- An externally visible action of the reload callback: a rebuild attempt
(`BuildConfiguration` invocation) or the publication of a snapshot on the
configuration channel. -/
inductive Action where
  | build
  | publish (c : Configuration)
deriving DecidableEq, Repr

/-- The provider's configuration knobs as `BuildConfiguration` and
`watcherCallback` consume them: a configured directory carries its `ReadDir`
outcome and listing; a configured filename or fallback file carries the
decoder's result for it (`none` models the empty string, `len(...) == 0`). -/
structure ProviderModel where
  directory : Option (Option String × List FsEntry)
  filename : Option (Except String (Option Configuration))
  traefikFile : Option (Except String (Option Configuration))

/-- Model of `BuildConfiguration` (file.go lines 98-113): directory mode when
a directory is configured (with nil initial accumulator), else single-file
mode on `Filename` (templated decode), else on `TraefikFile` (raw decode),
else the no-filename error. The warning output of the directory merge goes to
the logger and is dropped here. -/
def BuildConfiguration (p : ProviderModel) : Except String Configuration :=
  match p.directory with
  | some (readErr, entries) =>
    match loadFileConfigFromDirectory readErr entries none with
    | .error e => .error e
    | .ok (cfg, _) => .ok cfg
  | none =>
    match p.filename with
    | some decodeResult => loadFileConfig decodeResult
    | none =>
      match p.traefikFile with
      | some decodeResult => loadFileConfig decodeResult
      | none => .error "Error using file configuration backend, no filename defined"

/-- Model of `watcherCallback` (file.go lines 178-199): `statErr` is the
outcome of `os.Stat` on the watch target (the directory if configured, else
the filename, else the fallback file). A stat failure returns at once — no
rebuild, nothing published. Otherwise `BuildConfiguration` runs; its failure
is only logged, so nothing is published and the previously published
snapshot stays in effect; its success sends exactly the new snapshot. The
result is the callback's trace of externally visible actions, in order. -/
def watcherCallback (statErr : Option String) (p : ProviderModel) : List Action :=
  match statErr with
  | some _ => []
  | none =>
    match BuildConfiguration p with
    | .error _ => [Action.build]
    | .ok c => [Action.build, Action.publish c]

/-- The snapshots a callback trace publishes, in order. -/
def publishes (tr : List Action) : List Configuration :=
  tr.filterMap fun a =>
    match a with
    | Action.publish c => some c
    | Action.build => none

/-- C8: if stat of the watch target fails, the callback returns without
rebuilding (its trace is empty — no build, no publication); if the rebuild
fails, nothing is published, so the previously published snapshot remains in
effect; only a successful rebuild publishes, and it publishes exactly the
new snapshot. -/
theorem watcherCallback_spec (p : ProviderModel) :
    (∀ e, watcherCallback (some e) p = [] ∧ publishes (watcherCallback (some e) p) = []) ∧
    (∀ e, BuildConfiguration p = .error e →
      watcherCallback none p = [Action.build] ∧ publishes (watcherCallback none p) = []) ∧
    (∀ c, BuildConfiguration p = .ok c →
      publishes (watcherCallback none p) = [c]) := by
  refine ⟨fun e => ⟨rfl, rfl⟩, ?_, ?_⟩
  · intro e h
    constructor
    · simp only [watcherCallback, h]
    · simp only [watcherCallback, h, publishes, List.filterMap]
  · intro c h
    simp only [watcherCallback, h, publishes, List.filterMap]

/-- Witness for C8: a stat failure publishes nothing; a failing decode of the
configured file publishes nothing; a successful decode publishes exactly the
new snapshot. -/
theorem watcherCallback_spec_witness :
    (watcherCallback (some "transient rename") ⟨none, some (Except.ok none), none⟩ = [] ∧
      publishes (watcherCallback (some "transient rename")
        ⟨none, some (Except.ok none), none⟩) = []) ∧
    (watcherCallback none ⟨none, some (Except.error "bad toml"), none⟩ = [Action.build] ∧
      publishes (watcherCallback none ⟨none, some (Except.error "bad toml"), none⟩) = []) ∧
    publishes (watcherCallback none ⟨none, some (Except.ok none), none⟩) =
      [{ Backends := some [], Frontends := some [], TLS := none }] :=
  ⟨(watcherCallback_spec ⟨none, some (Except.ok none), none⟩).1 "transient rename",
   (watcherCallback_spec ⟨none, some (Except.error "bad toml"), none⟩).2.1 "bad toml" rfl,
   (watcherCallback_spec ⟨none, some (Except.ok none), none⟩).2.2
     { Backends := some [], Frontends := some [], TLS := none } rfl⟩

/-- The file part of Go `filepath.Split`: everything after the final path
separator. -/
def fileBaseName (s : String) : String :=
  String.mk ((s.data.reverse.takeWhile fun c => c ≠ '/').reverse)

/-- Single-target-mode event dispatch of `addWatcher` (file.go lines
136-148): with no directory configured, the tracked file is `Filename` when
set and `TraefikFile` otherwise; the event path's basename is compared with
the tracked file's basename and the reload callback is invoked exactly once
on a match, not at all on a mismatch. Returns how many times the callback is
invoked for the event. -/
def singleTargetEventCallbackCount (filename traefikFile evtName : String) : Nat :=
  let confFile := if filename.length > 0 then filename else traefikFile
  if fileBaseName evtName = fileBaseName confFile then 1 else 0

/-- C9: in single-target mode, a filesystem event whose basename differs
from the tracked file's basename (Filename if set, otherwise TraefikFile)
does not invoke the reload callback, and an event whose basename matches
invokes it exactly once. -/
theorem singleTarget_event_filter (filename traefikFile evtName : String) :
    (fileBaseName evtName ≠
        fileBaseName (if filename.length > 0 then filename else traefikFile) →
      singleTargetEventCallbackCount filename traefikFile evtName = 0) ∧
    (fileBaseName evtName =
        fileBaseName (if filename.length > 0 then filename else traefikFile) →
      singleTargetEventCallbackCount filename traefikFile evtName = 1) := by
  constructor
  · intro h
    simp [singleTargetEventCallbackCount, h]
  · intro h
    simp [singleTargetEventCallbackCount, h]

/-- Witness for C9 at the spec's end-to-end example: watching
`/etc/app.cfg`, an event for `/etc/other.txt` invokes the callback zero
times and an event for `/etc/app.cfg` exactly once. -/
theorem singleTarget_event_filter_witness :
    singleTargetEventCallbackCount "/etc/app.cfg" "" "/etc/other.txt" = 0 ∧
    singleTargetEventCallbackCount "/etc/app.cfg" "" "/etc/app.cfg" = 1 :=
  ⟨(singleTarget_event_filter "/etc/app.cfg" "" "/etc/other.txt").1 (by decide),
   (singleTarget_event_filter "/etc/app.cfg" "" "/etc/app.cfg").2 (by decide)⟩

end TraefikFileProvider









